import Mathlib

/-!
Verification of the Wordle-ES implementation (`src/wordle.py`).

Words are modelled as `List Char`. Feedback colours are the ANSI escape
strings of the source (`VERDE`, `AMARILLO`, `ROJO`); they play the roles
Correct / Present / Absent of the specification.

The Python library calls (`unicodedata.normalize('NFKD', ·)`,
`unicodedata.combining`, `str.lower`, `str.isalpha`) are embedded as
explicit character tables covering the Spanish alphabet: NFKD is the
identity on ASCII, decomposes the accented Spanish letters into base
letter plus combining mark, and is taken as the identity elsewhere;
`combining` recognises the Unicode combining-diacritics block
U+0300–U+036F; `isalpha` is modelled on the basic Latin alphabet.
-/

namespace WordleES

/-- ANSI background colour for a correct letter (source line 10). -/
def VERDE : String := "\x1b[42m"

/-- ANSI background colour for a present-elsewhere letter (source line 11). -/
def AMARILLO : String := "\x1b[43m"

/-- ANSI background colour for an absent letter (source line 12). -/
def ROJO : String := "\x1b[41m"

/-- Unicode combining-diacritics test, modelling `unicodedata.combining(c) != 0`
on the combining block U+0300–U+036F (covers the marks produced by the
decompositions below). -/
def combining (c : Char) : Bool :=
  0x300 ≤ c.toNat && c.toNat ≤ 0x36F

/-- Canonical (NFKD) decomposition of one character, modelling
`unicodedata.normalize('NFKD', ·)`: identity on ASCII, base letter plus
combining mark for the accented letters of the Spanish alphabet, identity
on every other character. -/
def nfkd_char (c : Char) : List Char :=
  if c.toNat < 0x80 then [c]
  else if c = 'Á' then ['A', '́']
  else if c = 'É' then ['E', '́']
  else if c = 'Í' then ['I', '́']
  else if c = 'Ó' then ['O', '́']
  else if c = 'Ú' then ['U', '́']
  else if c = 'Ü' then ['U', '̈']
  else if c = 'Ñ' then ['N', '̃']
  else if c = 'á' then ['a', '́']
  else if c = 'é' then ['e', '́']
  else if c = 'í' then ['i', '́']
  else if c = 'ó' then ['o', '́']
  else if c = 'ú' then ['u', '́']
  else if c = 'ü' then ['u', '̈']
  else if c = 'ñ' then ['n', '̃']
  else [c]

/-- One-character case folding, modelling `str.lower`: ASCII upper case to
lower case, accented Spanish capitals to their lower-case forms, identity
elsewhere. -/
def minuscula (c : Char) : Char :=
  if 'A' ≤ c && c ≤ 'Z' then Char.ofNat (c.toNat + 32)
  else if c = 'Á' then 'á'
  else if c = 'É' then 'é'
  else if c = 'Í' then 'í'
  else if c = 'Ó' then 'ó'
  else if c = 'Ú' then 'ú'
  else if c = 'Ü' then 'ü'
  else if c = 'Ñ' then 'ñ'
  else c

/-- Function `quitar_acentos` (source lines 37–44): NFKD-decompose every character,
drop the combining marks, lower-case the result. -/
def quitar_acentos (palabra : List Char) : List Char :=
  ((palabra.flatMap nfkd_char).filter (fun c => !combining c)).map minuscula

/-- Python `str.isalpha`, modelled on the basic Latin alphabet: true iff the string
is non-empty and every character is a letter. -/
def es_alpha (w : List Char) : Bool :=
  !w.isEmpty && w.all Char.isAlpha

/-- Function `validar_intento` (source lines 85–89): the guess must have exactly the
requested length and `isalpha` must hold. -/
def validar_intento (intento : List Char) (longitud : Nat) : Bool :=
  intento.length == longitud && es_alpha intento

/-- Pass 2 of `evaluar_intento` (source lines 120–128), fused with the
marking of pass 1: a position is still unmarked after pass 1
(`resultado[i][1] == ""`) exactly when the guess and secret letters differ
there.  `conteo` is the pass-1 remainder multiset (the dict
`conteo_resto`), represented as the list of unconsumed secret letters;
`conteo.count letra > 0` models `conteo_resto.get(letra, 0) > 0` and
`conteo.erase letra` models the decrement `conteo_resto[letra] -= 1`. -/
def pasada2 : List (Char × Char) → List Char → List (Char × String)
  | [], _ => []
  | (g, s) :: resto, conteo =>
    if g = s then
      (g, VERDE) :: pasada2 resto conteo
    else if conteo.count g > 0 then
      (g, AMARILLO) :: pasada2 resto (conteo.erase g)
    else
      (g, ROJO) :: pasada2 resto conteo

/-- The remainder multiset built between the two passes (source lines
113–118): the secret letters at the positions not marked green in pass 1,
i.e. at the positions where guess and secret differ. -/
def conteo_resto (pares : List (Char × Char)) : List Char :=
  (pares.filter (fun p => !(p.1 == p.2))).map Prod.snd

/-- Function `evaluar_intento` (source lines 91–130): two-pass duplicate-aware
evaluation of a guess against the secret.  Pass 1 marks exact matches
green; the remainder multiset of the secret is computed; pass 2 walks the
unmarked positions left to right, marking yellow while the multiset still
holds the letter and red otherwise.  Positions are the pairs of
`intento.zip secreto` (the caller guarantees equal lengths). -/
def evaluar_intento (intento secreto : List Char) : List (Char × String) :=
  let pares := intento.zip secreto
  pasada2 pares (conteo_resto pares)

/-! ### Candidate acquisition (source lines 46–83)

The network call and JSON decoding are effectful; they are embedded as an
explicit input `Descarga` describing what the outside world produced:
`urlopen` raised (`ErrorConexion`), `json.loads` raised
(`RespuestaNoJSON`), or a decoded list of entries, each reduced to its
`word` field (`entry.get('word', '')`; a record without the field
contributes the empty string).  The diagnostic the function prints on each
failure branch before returning `[]` is modelled as the second component
of the result. -/

/-- The outside world's response to the Datamuse request. -/
inductive Descarga
  | ErrorConexion
  | RespuestaNoJSON
  | Datos (entries : List (List Char))
deriving DecidableEq

/-- The diagnostic printed by a failing acquisition: source line 64
(`Error al conectarse a Datamuse`) or line 70
(`No se pudo decodificar la respuesta JSON.`). -/
inductive MensajeError
  | ErrorConectar
  | ErrorDecodificar
deriving DecidableEq

/-- Insertion-order deduplication, modelling `dict.fromkeys` (source line
83): keys are inserted left to right, a key already seen is skipped.
`vistos` is the set of keys inserted so far. -/
def dict_fromkeys_aux (vistos : List (List Char)) : List (List Char) → List (List Char)
  | [] => []
  | w :: ws =>
    if w ∈ vistos then dict_fromkeys_aux vistos ws
    else w :: dict_fromkeys_aux (w :: vistos) ws

/-- The call `list(dict.fromkeys(palabras))` (source line 83). -/
def dict_fromkeys (l : List (List Char)) : List (List Char) :=
  dict_fromkeys_aux [] l

/-- The filtering loop of `obtener_palabras_de_internet` (source lines
73–80): normalize each entry's word and keep it when the normalized form
still has the requested length and is alphabetic. -/
def filtrar_palabras (longitud : Nat) (entries : List (List Char)) : List (List Char) :=
  (entries.map quitar_acentos).filter (fun w => w.length == longitud && es_alpha w)

/-- Function `obtener_palabras_de_internet` (source lines 46–83) as a function of
the modelled outside-world response: both failure branches print their
diagnostic and return the empty list; the success branch filters,
deduplicates and prints nothing. -/
def obtener_palabras_de_internet (longitud : Nat) (d : Descarga) :
    List (List Char) × Option MensajeError :=
  match d with
  | .ErrorConexion => ([], some .ErrorConectar)
  | .RespuestaNoJSON => ([], some .ErrorDecodificar)
  | .Datos entries => (dict_fromkeys (filtrar_palabras longitud entries), none)

/-! ### Game session (source lines 143–199)

The `while` loop of `jugar_wordle_es` is embedded as a state record plus a
step function for one loop iteration.  `input()` is the iteration's
argument.  Winning `break`s out of the loop and losing falls out of the
`while` condition; both are recorded in an explicit `Estado` so that the
step function can refuse further turns, mirroring the loop no longer
running. -/

/-- Session phase: still inside the `while` loop, broke out on a win, or
fell out with the budget exhausted. -/
inductive Estado
  | EnCurso
  | Ganado
  | Perdido
deriving DecidableEq

/-- The session state owned by `jugar_wordle_es`: the secret word, the
chosen length, the attempt budget, the evaluated-guess history
(`intentos_info`), the attempt counter (`intentos_hechos`) and the phase. -/
structure Sesion where
  secreto : List Char
  longitud : Nat
  max_intentos : Nat
  intentos_info : List (List (Char × String))
  intentos_hechos : Nat
  estado : Estado
deriving DecidableEq

/-- Session initialization (source lines 163–170): the chosen secret, an
empty history, a zero attempt counter, the loop about to run. -/
def iniciar_sesion (secreto : List Char) (longitud max_intentos : Nat) : Sesion :=
  { secreto := secreto, longitud := longitud, max_intentos := max_intentos,
    intentos_info := [], intentos_hechos := 0, estado := Estado.EnCurso }

/-- Python `str.strip` on the raw input line: drop leading and trailing
whitespace. -/
def strip (s : List Char) : List Char :=
  ((s.dropWhile Char.isWhitespace).reverse.dropWhile Char.isWhitespace).reverse

/-- Normalization of one raw guess (source lines 173–174):
`input(...).strip().lower()` followed by `quitar_acentos`. -/
def normalizar_entrada (entrada : List Char) : List Char :=
  quitar_acentos ((strip entrada).map minuscula)

/-- One iteration of the game loop (source lines 172–197).  The guard
mirrors the loop actually running: the `while` condition
`intentos_hechos < max_intentos` and not having `break`ed out on a win.
An invalid guess `continue`s with nothing changed; a valid one is
evaluated, appended to the history and counted, then the win check runs
before the budget check. -/
def turno (s : Sesion) (entrada : List Char) : Sesion :=
  if s.estado = Estado.EnCurso ∧ s.intentos_hechos < s.max_intentos then
    let intento := normalizar_entrada entrada
    if validar_intento intento s.longitud then
      let evaluacion := evaluar_intento intento s.secreto
      let info := s.intentos_info ++ [evaluacion]
      let hechos := s.intentos_hechos + 1
      if evaluacion.all (fun e => e.2 == VERDE) then
        { s with intentos_info := info, intentos_hechos := hechos,
                 estado := Estado.Ganado }
      else if hechos < s.max_intentos then
        { s with intentos_info := info, intentos_hechos := hechos }
      else
        { s with intentos_info := info, intentos_hechos := hechos,
                 estado := Estado.Perdido }
    else s
  else s

end WordleES

namespace WordleES

/-! ### Structural lemmas about the evaluator -/

/-- Pass 2 produces one entry per position. -/
theorem pasada2_length (pares : List (Char × Char)) (conteo : List Char) :
    (pasada2 pares conteo).length = pares.length := by
  induction pares generalizing conteo with
  | nil => rfl
  | cons p resto ih =>
    obtain ⟨g, s⟩ := p
    simp only [pasada2]
    split
    · simp [ih]
    · split <;> simp [ih]

/-- The letter recorded at each position is the guess letter there. -/
theorem pasada2_map_fst (pares : List (Char × Char)) (conteo : List Char) :
    (pasada2 pares conteo).map Prod.fst = pares.map Prod.fst := by
  induction pares generalizing conteo with
  | nil => rfl
  | cons p resto ih =>
    obtain ⟨g, s⟩ := p
    simp only [pasada2]
    split
    · simp [ih]
    · split <;> simp [ih]

/-- Every entry produced by pass 2 carries one of the three colours. -/
theorem pasada2_color (pares : List (Char × Char)) (conteo : List Char) :
    ∀ e ∈ pasada2 pares conteo, e.2 = VERDE ∨ e.2 = AMARILLO ∨ e.2 = ROJO := by
  induction pares generalizing conteo with
  | nil => intro e he; simp [pasada2] at he
  | cons p resto ih =>
    obtain ⟨g, s⟩ := p
    intro e he
    simp only [pasada2] at he
    split at he
    · rcases List.mem_cons.mp he with rfl | he
      · exact Or.inl rfl
      · exact ih _ e he
    · split at he
      · rcases List.mem_cons.mp he with rfl | he
        · exact Or.inr (Or.inl rfl)
        · exact ih _ e he
      · rcases List.mem_cons.mp he with rfl | he
        · exact Or.inr (Or.inr rfl)
        · exact ih _ e he

/-- The three colour strings are pairwise distinct. -/
theorem amarillo_beq_verde : (AMARILLO == VERDE) = false := by decide

/-- The red colour string differs from the green one. -/
theorem rojo_beq_verde : (ROJO == VERDE) = false := by decide

/-- Green entries of the result correspond exactly to the positions where
the guess and secret letters agree. -/
theorem pasada2_countP_verde (pares : List (Char × Char)) (conteo : List Char) :
    (pasada2 pares conteo).countP (fun e => e.2 == VERDE)
      = pares.countP (fun p => p.1 == p.2) := by
  induction pares generalizing conteo with
  | nil => rfl
  | cons p resto ih =>
    obtain ⟨g, s⟩ := p
    simp only [pasada2]
    split
    · next hgs => simp [List.countP_cons, ih, hgs]
    · next hgs =>
      split <;>
        simp [List.countP_cons, ih, hgs, amarillo_beq_verde, rojo_beq_verde]

/-! ### Claim theorems about the evaluator -/

/-- C1.  For words `g`, `s` of equal length, `evaluar_intento g s` has
exactly as many green (Correct) entries as there are positions `i` with
`g[i] = s[i]` (the agreeing pairs of `g.zip s`). -/
theorem correct_count_eq_exact_matches (g s : List Char) (_h : g.length = s.length) :
    ((evaluar_intento g s).filter (fun e => e.2 == VERDE)).length
      = ((g.zip s).filter (fun p => p.1 == p.2)).length := by
  have hc := pasada2_countP_verde (g.zip s) (conteo_resto (g.zip s))
  simpa [evaluar_intento, List.countP_eq_length_filter] using hc

/-- Witness for `correct_count_eq_exact_matches` at guess "alloy",
secret "llama": one green entry, one agreeing position. -/
theorem correct_count_eq_exact_matches_witness :
    "alloy".toList.length = "llama".toList.length ∧
    ((evaluar_intento "alloy".toList "llama".toList).filter
        (fun e => e.2 == VERDE)).length
      = (("alloy".toList.zip "llama".toList).filter
          (fun p => p.1 == p.2)).length :=
  ⟨by decide, correct_count_eq_exact_matches "alloy".toList "llama".toList (by decide)⟩

/-- The red colour string differs from the yellow one. -/
theorem rojo_beq_amarillo : (ROJO == AMARILLO) = false := by decide

/-- Splitting a count over a Boolean case distinction on a second
predicate. -/
theorem countP_and_not_add {α : Type} (l : List α) (p q : α → Bool) :
    l.countP (fun a => p a && q a) + l.countP (fun a => p a && !q a) = l.countP p := by
  induction l with
  | nil => rfl
  | cons a t ih =>
    simp only [List.countP_cons]
    cases hq : q a <;> cases hp : p a <;> simp [hq, hp] <;> omega

/-- Pass 2 marks at most `conteo.count c` yellow entries with letter `c`
beyond the green ones, and a green entry with letter `c` consumes an
agreeing pair whose secret letter is `c`. -/
theorem pasada2_count_le (pares : List (Char × Char)) (conteo : List Char) (c : Char) :
    (pasada2 pares conteo).countP (fun e => e.1 == c && (e.2 == VERDE || e.2 == AMARILLO))
      ≤ pares.countP (fun p => (p.2 == c) && (p.1 == p.2)) + conteo.count c := by
  induction pares generalizing conteo with
  | nil => simp [pasada2]
  | cons p resto ih =>
    obtain ⟨g, s⟩ := p
    simp only [pasada2]
    split
    · next hgs =>
      subst hgs
      simp only [List.countP_cons]
      have h1 := ih conteo
      by_cases hgc : g = c <;> simp [hgc] <;> omega
    · next hgs =>
      split
      · next hcnt =>
        simp only [List.countP_cons]
        by_cases hgc : g = c
        · subst hgc
          have h1 := ih (conteo.erase g)
          rw [List.count_erase_self] at h1
          simp [hgs, amarillo_beq_verde]
          omega
        · have h1 := ih (conteo.erase g)
          rw [List.count_erase_of_ne (fun hcg => hgc hcg.symm)] at h1
          simp [hgs, hgc]
          omega
      · next hcnt =>
        simp only [List.countP_cons]
        have h1 := ih conteo
        simp [hgs, rojo_beq_verde, rojo_beq_amarillo]
        omega

/-- C2.  For words of equal length the number of entries marked yellow
(Present) plus green (Correct) whose guess letter is `c` never exceeds the
number of occurrences of `c` in the secret. -/
theorem present_plus_correct_le_secret_count (g s : List Char) (c : Char)
    (h : g.length = s.length) :
    ((evaluar_intento g s).filter
        (fun e => e.1 == c && (e.2 == VERDE || e.2 == AMARILLO))).length
      ≤ s.count c := by
  have hle := pasada2_count_le (g.zip s) (conteo_resto (g.zip s)) c
  have hsplit := countP_and_not_add (g.zip s) (fun p => p.2 == c) (fun p => p.1 == p.2)
  have hcr : (conteo_resto (g.zip s)).count c
      = (g.zip s).countP (fun p => (p.2 == c) && !(p.1 == p.2)) := by
    rw [conteo_resto, List.count_eq_countP, List.countP_map, List.countP_filter]
    rfl
  have hs : (g.zip s).countP (fun p => p.2 == c) = s.count c :=
    calc (g.zip s).countP (fun p => p.2 == c)
        = ((g.zip s).map Prod.snd).countP (fun x => x == c) :=
          (List.countP_map (fun x => x == c) Prod.snd (g.zip s)).symm
      _ = s.countP (fun x => x == c) := by rw [List.map_snd_zip g s h.ge]
      _ = s.count c := (List.count_eq_countP c s).symm
  rw [← List.countP_eq_length_filter]
  simp only [evaluar_intento]
  omega

/-- Witness for `present_plus_correct_le_secret_count` at guess "alloy",
secret "llama", letter 'l': two green-or-yellow entries for 'l', and
"llama" holds two 'l'. -/
theorem present_plus_correct_le_secret_count_witness :
    "alloy".toList.length = "llama".toList.length ∧
    (("alloy".toList.zip "llama".toList).filter (fun p => p.1 == p.2)).length = 1 ∧
    ((evaluar_intento "alloy".toList "llama".toList).filter
        (fun e => e.1 == 'l' && (e.2 == VERDE || e.2 == AMARILLO))).length
      ≤ "llama".toList.count 'l' :=
  ⟨by decide, by decide,
    present_plus_correct_le_secret_count "alloy".toList "llama".toList 'l' (by decide)⟩

/-- C3.  On guess "alloy" against secret "llama" the evaluator returns
Present, Correct, Present, Absent, Absent (yellow, green, yellow, red,
red): pass 2 walks the non-green positions left to right against the
remainder multiset `{l, a, m, a}` left by pass 1. -/
theorem evaluar_alloy_llama :
    evaluar_intento "alloy".toList "llama".toList =
      [('a', AMARILLO), ('l', VERDE), ('l', AMARILLO), ('o', ROJO), ('y', ROJO)] := by
  decide

/-- C9.  The normalizer decomposes each character canonically, discards
the combining marks and lower-cases: `quitar_acentos "CAÑÓN" = "canon"`. -/
theorem normalizar_canon : quitar_acentos "CAÑÓN".toList = "canon".toList := by
  decide

/-- C10.  For words of equal length `n` the result has exactly `n`
entries, the letter at each position is the guess letter there, and every
entry is marked with one of the three colours — no position is left
unmarked after pass 2. -/
theorem evaluar_formato_resultado (g s : List Char) (h : g.length = s.length) :
    (evaluar_intento g s).length = s.length ∧
    (evaluar_intento g s).map Prod.fst = g ∧
    ∀ e ∈ evaluar_intento g s, e.2 = VERDE ∨ e.2 = AMARILLO ∨ e.2 = ROJO := by
  refine ⟨?_, ?_, ?_⟩
  · rw [evaluar_intento, pasada2_length, List.length_zip, h, min_self]
  · rw [evaluar_intento, pasada2_map_fst, List.map_fst_zip g s h.le]
  · exact pasada2_color _ _

/-- Witness for `evaluar_formato_resultado` at guess "alloy", secret
"llama". -/
theorem evaluar_formato_resultado_witness :
    "alloy".toList.length = "llama".toList.length ∧
    (evaluar_intento "alloy".toList "llama".toList).length = "llama".toList.length ∧
    (evaluar_intento "alloy".toList "llama".toList).map Prod.fst = "alloy".toList ∧
    ∀ e ∈ evaluar_intento "alloy".toList "llama".toList,
      e.2 = VERDE ∨ e.2 = AMARILLO ∨ e.2 = ROJO :=
  ⟨by decide, evaluar_formato_resultado "alloy".toList "llama".toList (by decide)⟩

/-! ### Lemmas and claims about the game session -/

/-- A turn never changes the secret word. -/
theorem turno_secreto (s : Sesion) (entrada : List Char) :
    (turno s entrada).secreto = s.secreto := by
  simp only [turno]
  split
  · split
    · split
      · rfl
      · split <;> rfl
    · rfl
  · rfl

/-- The secret after any sequence of turns is the one the session was
initialized with. -/
theorem foldl_turno_secreto (entradas : List (List Char)) (s : Sesion) :
    (entradas.foldl turno s).secreto = s.secreto := by
  induction entradas generalizing s with
  | nil => rfl
  | cons e t ih => rw [List.foldl_cons, ih, turno_secreto]

/-- C4.  A raw guess whose normalized form fails validation against the
secret's length (wrong length or a non-alphabetic character) is a rejected
turn during play: the attempt counter is not incremented, nothing is
appended to the history, and the session stays in progress. -/
theorem intento_invalido_rechazado (s : Sesion) (entrada : List Char)
    (h1 : s.estado = Estado.EnCurso)
    (h2 : s.intentos_hechos < s.max_intentos)
    (h3 : s.longitud = s.secreto.length)
    (h4 : validar_intento (normalizar_entrada entrada) s.secreto.length = false) :
    (turno s entrada).intentos_hechos = s.intentos_hechos ∧
    (turno s entrada).intentos_info = s.intentos_info ∧
    (turno s entrada).estado = Estado.EnCurso := by
  have h4' : validar_intento (normalizar_entrada entrada) s.longitud = false := by
    rw [h3]; exact h4
  have ht : turno s entrada = s := by simp [turno, h1, h2, h4']
  rw [ht]
  exact ⟨rfl, rfl, h1⟩

/-- Witness for `intento_invalido_rechazado`: a fresh session on secret
"canon" rejects the three-letter guess "cat". -/
theorem intento_invalido_rechazado_witness :
    (iniciar_sesion "canon".toList 5 6).estado = Estado.EnCurso ∧
    (turno (iniciar_sesion "canon".toList 5 6) "cat".toList).intentos_hechos
        = (iniciar_sesion "canon".toList 5 6).intentos_hechos ∧
    (turno (iniciar_sesion "canon".toList 5 6) "cat".toList).intentos_info
        = (iniciar_sesion "canon".toList 5 6).intentos_info ∧
    (turno (iniciar_sesion "canon".toList 5 6) "cat".toList).estado = Estado.EnCurso :=
  ⟨by decide,
    intento_invalido_rechazado (iniciar_sesion "canon".toList 5 6) "cat".toList
      (by decide) (by decide) (by decide) (by decide)⟩

/-- C5.  An all-green evaluation on the final permitted attempt (the
counter reaches `max_intentos` with this increment) wins the session: the
win check runs before the budget-exhaustion check. -/
theorem victoria_en_ultimo_intento (s : Sesion) (entrada : List Char)
    (h1 : s.estado = Estado.EnCurso)
    (h2 : s.intentos_hechos + 1 = s.max_intentos)
    (hv : validar_intento (normalizar_entrada entrada) s.longitud = true)
    (hg : (evaluar_intento (normalizar_entrada entrada) s.secreto).all
        (fun e => e.2 == VERDE) = true) :
    (turno s entrada).estado = Estado.Ganado := by
  have h2' : s.intentos_hechos < s.max_intentos := by omega
  simp [turno, h1, h2', hv, hg]

/-- Witness for `victoria_en_ultimo_intento`: guessing "canon" on the one
and only attempt of a one-attempt session with secret "canon" wins. -/
theorem victoria_en_ultimo_intento_witness :
    (iniciar_sesion "canon".toList 5 1).intentos_hechos + 1
        = (iniciar_sesion "canon".toList 5 1).max_intentos ∧
    (turno (iniciar_sesion "canon".toList 5 1) "canon".toList).estado = Estado.Ganado :=
  ⟨by decide,
    victoria_en_ultimo_intento (iniciar_sesion "canon".toList 5 1) "canon".toList
      (by decide) (by decide) (by decide) (by decide)⟩

/-- C6.  A valid but not all-green guess on the final permitted attempt
loses the session, and the secret the final report reveals — unchanged by
every turn — is the word the session was initialized with. -/
theorem derrota_al_agotar_intentos (sec : List Char) (lon m : Nat)
    (entradas : List (List Char)) (s : Sesion) (entrada : List Char)
    (h1 : s.estado = Estado.EnCurso)
    (h2 : s.intentos_hechos + 1 = s.max_intentos)
    (hv : validar_intento (normalizar_entrada entrada) s.longitud = true)
    (hg : (evaluar_intento (normalizar_entrada entrada) s.secreto).all
        (fun e => e.2 == VERDE) = false) :
    (turno s entrada).estado = Estado.Perdido ∧
    (turno s entrada).secreto = s.secreto ∧
    (entradas.foldl turno (iniciar_sesion sec lon m)).secreto = sec := by
  refine ⟨?_, turno_secreto s entrada, foldl_turno_secreto entradas _⟩
  have h2' : s.intentos_hechos < s.max_intentos := by omega
  have h3 : ¬ s.intentos_hechos + 1 < s.max_intentos := by omega
  simp [turno, h1, h2', hv, hg, h3]

/-- Witness for `derrota_al_agotar_intentos`: guessing "pinta" on the one
and only attempt of a one-attempt session with secret "canon" loses, and
the revealed secret is "canon". -/
theorem derrota_al_agotar_intentos_witness :
    (evaluar_intento (normalizar_entrada "pinta".toList)
        (iniciar_sesion "canon".toList 5 1).secreto).all
      (fun e => e.2 == VERDE) = false ∧
    (turno (iniciar_sesion "canon".toList 5 1) "pinta".toList).estado = Estado.Perdido ∧
    (turno (iniciar_sesion "canon".toList 5 1) "pinta".toList).secreto
        = (iniciar_sesion "canon".toList 5 1).secreto ∧
    (["pinta".toList].foldl turno (iniciar_sesion "canon".toList 5 1)).secreto
        = "canon".toList :=
  ⟨by decide,
    derrota_al_agotar_intentos "canon".toList 5 1 ["pinta".toList]
      (iniciar_sesion "canon".toList 5 1) "pinta".toList
      (by decide) (by decide) (by decide) (by decide)⟩

/-! ### Claims about candidate acquisition -/

/-- C7.  Both acquisition failures — transport error and undecodable
payload — return the empty pool and print a diagnostic, while a
successful transport prints none even when filtering leaves the pool
empty, so the failure kinds are distinguishable from the no-candidates
outcome. -/
theorem fallo_adquisicion_distinguible (longitud : Nat) (d : Descarga)
    (h : d = Descarga.ErrorConexion ∨ d = Descarga.RespuestaNoJSON) :
    (obtener_palabras_de_internet longitud d).1 = [] ∧
    (obtener_palabras_de_internet longitud d).2.isSome = true ∧
    ∀ entries,
      (obtener_palabras_de_internet longitud (Descarga.Datos entries)).2 = none := by
  rcases h with rfl | rfl <;> exact ⟨rfl, rfl, fun _ => rfl⟩

/-- Witness for `fallo_adquisicion_distinguible` at length 5 and a
transport failure, with the success branch instantiated at the empty
response. -/
theorem fallo_adquisicion_distinguible_witness :
    (obtener_palabras_de_internet 5 Descarga.ErrorConexion).1 = [] ∧
    (obtener_palabras_de_internet 5 Descarga.ErrorConexion).2.isSome = true ∧
    (obtener_palabras_de_internet 5 (Descarga.Datos [])).2 = none :=
  ⟨(fallo_adquisicion_distinguible 5 Descarga.ErrorConexion (Or.inl rfl)).1,
    (fallo_adquisicion_distinguible 5 Descarga.ErrorConexion (Or.inl rfl)).2.1,
    (fallo_adquisicion_distinguible 5 Descarga.ErrorConexion (Or.inl rfl)).2.2 []⟩

/-! ### Lemmas about insertion-order deduplication -/

/-- Index lookup over a cons whose head differs from the sought element. -/
theorem indexOf_cons_of_ne (w x : List Char) (l : List (List Char)) (h : x ≠ w) :
    (w :: l).indexOf x = l.indexOf x + 1 := by
  simp [List.indexOf_cons, cond_eq_if, beq_iff_eq, Ne.symm h]

/-- Index lookup finds the head immediately. -/
theorem indexOf_cons_head (x : List Char) (l : List (List Char)) :
    (x :: l).indexOf x = 0 := by
  simp [List.indexOf_cons]

/-- Membership in the deduplicated list: present in the input and not
among the already-seen keys. -/
theorem mem_dict_fromkeys_aux (l : List (List Char)) :
    ∀ (vistos : List (List Char)) (x : List Char),
      x ∈ dict_fromkeys_aux vistos l ↔ x ∈ l ∧ x ∉ vistos := by
  induction l with
  | nil => intro vistos x; simp [dict_fromkeys_aux]
  | cons w ws ih =>
    intro vistos x
    simp only [dict_fromkeys_aux]
    by_cases hw : w ∈ vistos
    · rw [if_pos hw, ih]
      constructor
      · rintro ⟨hx, hv⟩
        exact ⟨List.mem_cons_of_mem _ hx, hv⟩
      · rintro ⟨hx, hv⟩
        rcases List.mem_cons.mp hx with rfl | hx
        · exact absurd hw hv
        · exact ⟨hx, hv⟩
    · rw [if_neg hw]
      constructor
      · intro hx
        rcases List.mem_cons.mp hx with rfl | hx
        · exact ⟨List.mem_cons_self _ _, hw⟩
        · obtain ⟨h1, h2⟩ := (ih _ x).mp hx
          exact ⟨List.mem_cons_of_mem _ h1,
            fun hv => h2 (List.mem_cons_of_mem _ hv)⟩
      · rintro ⟨hx, hv⟩
        rcases List.mem_cons.mp hx with rfl | hx
        · exact List.mem_cons_self _ _
        · by_cases hxw : x = w
          · subst hxw; exact List.mem_cons_self _ _
          · refine List.mem_cons_of_mem _ ((ih _ x).mpr ⟨hx, ?_⟩)
            intro hxv
            rcases List.mem_cons.mp hxv with h | h
            · exact hxw h
            · exact hv h

/-- The deduplicated list is ordered by first occurrence in the input:
any element appears strictly before any later element's first occurrence. -/
theorem dict_fromkeys_aux_pairwise (l : List (List Char)) :
    ∀ vistos : List (List Char),
      (dict_fromkeys_aux vistos l).Pairwise
        (fun x y => l.indexOf x < l.indexOf y) := by
  induction l with
  | nil => intro vistos; simp [dict_fromkeys_aux]
  | cons w ws ih =>
    intro vistos
    simp only [dict_fromkeys_aux]
    by_cases hw : w ∈ vistos
    · rw [if_pos hw]
      refine (ih vistos).imp_of_mem ?_
      intro a b ha hb hR
      have haw : a ≠ w :=
        fun h => ((mem_dict_fromkeys_aux ws vistos a).mp ha).2 (h ▸ hw)
      have hbw : b ≠ w :=
        fun h => ((mem_dict_fromkeys_aux ws vistos b).mp hb).2 (h ▸ hw)
      show List.indexOf a (w :: ws) < List.indexOf b (w :: ws)
      rw [indexOf_cons_of_ne w a ws haw, indexOf_cons_of_ne w b ws hbw]
      omega
    · rw [if_neg hw]
      rw [List.pairwise_cons]
      constructor
      · intro y hy
        have hyy := (mem_dict_fromkeys_aux ws (w :: vistos) y).mp hy
        have hyw : y ≠ w := fun h => hyy.2 (h ▸ List.mem_cons_self _ _)
        show List.indexOf w (w :: ws) < List.indexOf y (w :: ws)
        rw [indexOf_cons_head w ws, indexOf_cons_of_ne w y ws hyw]
        exact Nat.succ_pos _
      · refine (ih (w :: vistos)).imp_of_mem ?_
        intro a b ha hb hR
        have haw : a ≠ w :=
          fun h => ((mem_dict_fromkeys_aux ws (w :: vistos) a).mp ha).2
            (h ▸ List.mem_cons_self _ _)
        have hbw : b ≠ w :=
          fun h => ((mem_dict_fromkeys_aux ws (w :: vistos) b).mp hb).2
            (h ▸ List.mem_cons_self _ _)
        show List.indexOf a (w :: ws) < List.indexOf b (w :: ws)
        rw [indexOf_cons_of_ne w a ws haw, indexOf_cons_of_ne w b ws hbw]
        omega

/-- The deduplicated list has no duplicates. -/
theorem dict_fromkeys_nodup (l : List (List Char)) : (dict_fromkeys l).Nodup := by
  refine (dict_fromkeys_aux_pairwise l []).imp ?_
  intro a b h hab
  subst hab
  exact Nat.lt_irrefl _ h

/-! ### Canonical form of the filtered words -/

/-- Codepoint of `Char.ofNatAux`. -/
theorem char_toNat_ofNatAux (n : Nat) (h : n.isValidChar) :
    (Char.ofNatAux n h).toNat = n := by
  simp [Char.ofNatAux, Char.toNat, UInt32.toNat]

/-- Codepoint of `Char.ofNat` on a valid codepoint. -/
theorem char_toNat_ofNat (n : Nat) (h : n.isValidChar) :
    (Char.ofNat n).toNat = n := by
  rw [Char.ofNat, dif_pos h]
  exact char_toNat_ofNatAux n h

/-- Character order in terms of codepoints. -/
theorem char_le_iff (a b : Char) : a ≤ b ↔ a.toNat ≤ b.toNat := by
  simp [Char.le_def, UInt32.le_def, BitVec.le_def, Char.toNat, UInt32.toNat]

/-- Alphabetic test in terms of codepoints. -/
theorem char_isAlpha_iff (c : Char) :
    c.isAlpha = true ↔
      (65 ≤ c.toNat ∧ c.toNat ≤ 90) ∨ (97 ≤ c.toNat ∧ c.toNat ≤ 122) := by
  simp [Char.isAlpha, Char.isUpper, Char.isLower, UInt32.le_def, BitVec.le_def,
    Char.toNat, UInt32.toNat, ge_iff_le]

/-- Case folding never produces an ASCII capital letter. -/
theorem minuscula_not_upper (d : Char) :
    ¬(65 ≤ (minuscula d).toNat ∧ (minuscula d).toNat ≤ 90) := by
  have hA : 'A'.toNat = 65 := rfl
  have hZ : 'Z'.toNat = 90 := rfl
  simp only [minuscula]
  split_ifs with h0 h1 h2 h3 h4 h5 h6 h7
  · simp only [Bool.and_eq_true, decide_eq_true_eq] at h0
    have ha := (char_le_iff 'A' d).mp h0.1
    have hb := (char_le_iff d 'Z').mp h0.2
    rw [hA] at ha
    rw [hZ] at hb
    have hval : (d.toNat + 32).isValidChar := Or.inl (by omega)
    rw [char_toNat_ofNat _ hval]
    omega
  · decide
  · decide
  · decide
  · decide
  · decide
  · decide
  · decide
  · intro hc
    have ha : 'A' ≤ d := (char_le_iff 'A' d).mpr (by rw [hA]; omega)
    have hb : d ≤ 'Z' := (char_le_iff d 'Z').mpr (by rw [hZ]; omega)
    exact h0 (by simp [ha, hb])

/-- Every character the normalizer outputs avoids the ASCII capital
range. -/
theorem quitar_acentos_not_upper (w : List Char) :
    ∀ c ∈ quitar_acentos w, ¬(65 ≤ c.toNat ∧ c.toNat ≤ 90) := by
  intro c hc
  simp only [quitar_acentos] at hc
  obtain ⟨d, _, rfl⟩ := List.mem_map.mp hc
  exact minuscula_not_upper d

/-- A lowercase ASCII letter passes through decomposition, the combining
filter and case folding unchanged. -/
theorem lower_char_fixed (c : Char) (h1 : 97 ≤ c.toNat) (h2 : c.toNat ≤ 122) :
    nfkd_char c = [c] ∧ combining c = false ∧ minuscula c = c := by
  have hZ : 'Z'.toNat = 90 := rfl
  refine ⟨?_, ?_, ?_⟩
  · have hlt : c.toNat < 0x80 := by omega
    simp [nfkd_char, hlt]
  · have hlt : ¬(0x300 ≤ c.toNat) := by omega
    simp [combining, hlt]
  · simp only [minuscula]
    split_ifs with h0 hc1 hc2 hc3 hc4 hc5 hc6 hc7
    · exfalso
      simp only [Bool.and_eq_true, decide_eq_true_eq] at h0
      have hb := (char_le_iff c 'Z').mp h0.2
      rw [hZ] at hb
      omega
    · exact absurd h2 (by subst hc1; decide)
    · exact absurd h2 (by subst hc2; decide)
    · exact absurd h2 (by subst hc3; decide)
    · exact absurd h2 (by subst hc4; decide)
    · exact absurd h2 (by subst hc5; decide)
    · exact absurd h2 (by subst hc6; decide)
    · exact absurd h2 (by subst hc7; decide)
    · rfl

/-- The normalizer is the identity on words of lowercase ASCII letters. -/
theorem quitar_acentos_fijo (w : List Char)
    (hw : ∀ c ∈ w, 97 ≤ c.toNat ∧ c.toNat ≤ 122) :
    quitar_acentos w = w := by
  induction w with
  | nil => rfl
  | cons c t ih =>
    have hc := hw c (List.mem_cons_self _ _)
    obtain ⟨h1, h2, h3⟩ := lower_char_fixed c hc.1 hc.2
    have ht := ih (fun d hd => hw d (List.mem_cons_of_mem _ hd))
    simp only [quitar_acentos] at ht ⊢
    rw [List.flatMap_cons, h1, List.filter_append, List.map_append, ht]
    simp [h2, h3]

/-- C8.  On any decoded response the acquisition prints no diagnostic;
the pool has no duplicates and lists the surviving normalized entries in
first-seen order (no survivor is dropped, and the pool is strictly sorted
by first occurrence in the filtered list); and every pool word has the
requested length, is alphabetic, is fixed by the normalizer (canonical
form), and is the canonical form of some entry of the response. -/
theorem filtrado_candidatos (longitud : Nat) (entries : List (List Char)) :
    (obtener_palabras_de_internet longitud (Descarga.Datos entries)).2 = none ∧
    (obtener_palabras_de_internet longitud (Descarga.Datos entries)).1.Nodup ∧
    (obtener_palabras_de_internet longitud (Descarga.Datos entries)).1.Pairwise
      (fun x y => (filtrar_palabras longitud entries).indexOf x
        < (filtrar_palabras longitud entries).indexOf y) ∧
    (∀ w ∈ filtrar_palabras longitud entries,
      w ∈ (obtener_palabras_de_internet longitud (Descarga.Datos entries)).1) ∧
    ∀ w ∈ (obtener_palabras_de_internet longitud (Descarga.Datos entries)).1,
      w.length = longitud ∧ es_alpha w = true ∧ quitar_acentos w = w ∧
        ∃ raw ∈ entries, quitar_acentos raw = w := by
  refine ⟨rfl, dict_fromkeys_nodup _, dict_fromkeys_aux_pairwise _ [], ?_, ?_⟩
  · intro w hwf
    show w ∈ dict_fromkeys (filtrar_palabras longitud entries)
    exact (mem_dict_fromkeys_aux _ [] w).mpr ⟨hwf, by simp⟩
  · intro w hw
    have hwf : w ∈ filtrar_palabras longitud entries :=
      ((mem_dict_fromkeys_aux _ [] w).mp hw).1
    simp only [filtrar_palabras] at hwf
    obtain ⟨hm, hcond⟩ := List.mem_filter.mp hwf
    simp only [Bool.and_eq_true, beq_iff_eq] at hcond
    obtain ⟨raw, hraw, hwraw⟩ := List.mem_map.mp hm
    have hlow : ∀ c ∈ w, 97 ≤ c.toNat ∧ c.toNat ≤ 122 := by
      intro c hcw
      have halpha : c.isAlpha = true := by
        have := hcond.2
        simp only [es_alpha, Bool.and_eq_true, List.all_eq_true] at this
        exact this.2 c hcw
      have hnup : ¬(65 ≤ c.toNat ∧ c.toNat ≤ 90) := by
        refine quitar_acentos_not_upper raw c ?_
        rw [hwraw]
        exact hcw
      rcases (char_isAlpha_iff c).mp halpha with hup | hlo
      · exact absurd hup hnup
      · exact hlo
    exact ⟨hcond.1, hcond.2, quitar_acentos_fijo w hlow, raw, hraw, hwraw⟩

/-- Witness for `filtrado_candidatos` on a concrete decoded response of
four entries ("casas", "CAÑÓN", a duplicate "casas", and the too-short
"pino"): no diagnostic, deduplicated pool, the survivor "casas" is kept,
and the pool word "canon" has length 5, is alphabetic, is canonical, and
comes from the entry "CAÑÓN". -/
theorem filtrado_candidatos_witness :
    (obtener_palabras_de_internet 5 (Descarga.Datos
        ["casas".toList, "CAÑÓN".toList, "casas".toList, "pino".toList])).2 = none ∧
    (obtener_palabras_de_internet 5 (Descarga.Datos
        ["casas".toList, "CAÑÓN".toList, "casas".toList, "pino".toList])).1.Nodup ∧
    "casas".toList ∈ (obtener_palabras_de_internet 5 (Descarga.Datos
        ["casas".toList, "CAÑÓN".toList, "casas".toList, "pino".toList])).1 ∧
    ("canon".toList.length = 5 ∧ es_alpha "canon".toList = true ∧
      quitar_acentos "canon".toList = "canon".toList ∧
      ∃ raw ∈ ["casas".toList, "CAÑÓN".toList, "casas".toList, "pino".toList],
        quitar_acentos raw = "canon".toList) :=
  ⟨(filtrado_candidatos 5 _).1,
    (filtrado_candidatos 5 _).2.1,
    (filtrado_candidatos 5 _).2.2.2.1 "casas".toList (by decide),
    (filtrado_candidatos 5 _).2.2.2.2 "canon".toList (by decide)⟩

end WordleES
